import Mathlib

/-!
# Verification of the block-ex ingestion pipeline against its specification

Shallow embedding of the ingestor's pure logic, translated from the Rust
sources (`src/ingestor/src/`):

* `codec.rs` — tx-extra parsing, ring-size extraction, bulletproof detection;
* `work_tx.rs` — per-block transaction fetching and (hash, json) pairing;
* `fetch.rs` — the adaptive batch fetcher;
* `reorg.rs` — reorg healing over a relational-store model;
* `work_sched.rs` — the height scheduler;
* `work_block.rs` — the header fetcher with its bulk-mode downgrade;
* `checkpoint.rs` — the checkpoint singleton row;
* `work_persist.rs` — block preparation in the persister.

Modelling conventions: hashes, JSON blobs and tx identifiers are opaque
tokens (`Nat`); JSON values are a small inductive with object field lookup;
the relational store is a record of height-indexed maps; daemon RPC is an
oracle function, `none` standing for a failed call; loops whose iteration
count is bounded by an input (the tx-extra scan consumes at least one byte
per step, the chunker at least one element) are written with an explicit
structural budget set to that bound, so every definition evaluates by
kernel reduction.
-/

namespace BlockEx

/-! ## JSON values (serde_json::Value, restricted to what the ingestor reads) -/

/-- JSON value model. Object keys are opaque `Nat` tokens; the distinguished
keys the codec reads are named below. -/
inductive Json where
  | null
  | num (n : Nat)
  | arr (elems : List Json)
  | obj (fields : List (Nat × Json))

/-- Key token for the rctsig_prunable field named bp. -/
def keyBp : Nat := 0

/-- Key token for the rctsig_prunable field named bp_plus. -/
def keyBpPlus : Nat := 1

/-- Key token for the vin entry field named key. -/
def keyKey : Nat := 2

/-- Key token for the field named key_offsets. -/
def keyKeyOffsets : Nat := 3

/-- serde_json's `Value::get(key)`: field lookup on an object, `none` on any
other value (including `null`). -/
def Json.get (j : Json) (k : Nat) : Option Json :=
  match j with
  | .obj fields => (fields.find? (fun p => p.1 == k)).map (fun p => p.2)
  | _ => none

/-- serde_json's `Value::is_null()`. -/
def Json.isNull : Json → Bool
  | .null => true
  | _ => false

/-- serde_json's `Value::as_array()`. -/
def Json.asArr : Json → Option (List Json)
  | .arr elems => some elems
  | _ => none

mutual
/-- Stand-in for the byte length of a value's JSON serialisation
(`v.to_string().as_bytes().len()` in the source): a structural size.  The
claims under verification never inspect this number, only the flag computed
alongside it. -/
def Json.serSize : Json → Nat
  | .null => 4
  | .num _ => 1
  | .arr elems => 2 + Json.serSizeElems elems
  | .obj fields => 2 + Json.serSizeFields fields
def Json.serSizeElems : List Json → Nat
  | [] => 0
  | j :: js => Json.serSize j + 1 + Json.serSizeElems js
def Json.serSizeFields : List (Nat × Json) → Nat
  | [] => 0
  | (_, j) :: fs => Json.serSize j + 4 + Json.serSizeFields fs
end

/-! ## codec.rs -/

/-- The parsed transaction JSON (`codec.rs`, `struct TxJson`): the fields the
analyser reads.  `extra` is kept as the decoded byte list (the source stores
the hex string and decodes it in `parse_tx_extra`; hex decoding is a
bijection on valid input, which claim C6 assumes). -/
structure TxJson where
  version : Nat
  vin : List Json
  vout : List Json
  extra : List Nat
  rctsig_prunable : Json
  unlock_time : Nat

/-- Tags of the tx-extra stream (`codec.rs`, `enum TxExtraTag`).  `pubKey`
keeps the 32 raw bytes (the source stores their hex encoding). -/
inductive TxExtraTag where
  | pubKey (bytes : List Nat)
  | nonce (bytes : List Nat)
  | additionalPubKeys (count : Nat)
  | unknown (tag : Nat) (len : Nat)
deriving DecidableEq, Repr

/-- `codec.rs` `estimate_bp`, translated branch for branch: `(true, 0)` for a
null section, `(true, |bp|)` when a `bp` field is present, `(true, |bp_plus|)`
when a `bp_plus` field is present, `(true, 0)` otherwise.  Note every branch
of the source returns `true` as the flag. -/
def estimate_bp (prunable : Json) : Bool × Nat :=
  if prunable.isNull then (true, 0)
  else
    match prunable.get keyBp with
    | some v => (true, v.serSize)
    | none =>
      match prunable.get keyBpPlus with
      | some v => (true, v.serSize)
      | none => (true, 0)

/-- `codec.rs` `extract_ring_sizes`: per input,
`vin[i].key.key_offsets` as an array's length, zero if absent. -/
def extract_ring_sizes (vin : List Json) : List Nat :=
  vin.map (fun v =>
    match ((v.get keyKey).bind (fun k => k.get keyKeyOffsets)).bind Json.asArr with
    | some a => a.length
    | none => 0)

/-- `work_persist.rs` `prepare_tx`, analytics-disabled arm: the heuristic
`bp_plus` flag, `rctsig_prunable.get("bp_plus").or(get("bp"))` mapped through
"is not null", defaulting to `false`. -/
def heuristic_bp_plus (prunable : Json) : Bool :=
  match prunable.get keyBpPlus <|> prunable.get keyBp with
  | some v => !v.isNull
  | none => false

/-- One pass of the `parse_tx_extra` loop body (`codec.rs` lines 93-145),
written as structural recursion on a budget of remaining iterations; the
loop consumes at least the tag byte per iteration, so a budget of the byte
count is never exhausted. An early `[]` is the source's `break`: the tags
completed so far are returned by the caller's accumulation. -/
def parseTxExtraGo : Nat → List Nat → List TxExtraTag
  | 0, _ => []
  | _, [] => []
  | budget + 1, t :: rest =>
    if t = 0 then
      parseTxExtraGo budget rest
    else if t = 1 then
      if rest.length < 32 then []
      else .pubKey (rest.take 32) :: parseTxExtraGo budget (rest.drop 32)
    else if t = 2 then
      match rest with
      | [] => []
      | len :: r2 =>
        if r2.length < len then []
        else .nonce (r2.take len) :: parseTxExtraGo budget (r2.drop len)
    else if t = 4 then
      match rest with
      | [] => []
      | len :: r2 =>
        if r2.length < len then []
        else .additionalPubKeys (len / 32) :: parseTxExtraGo budget (r2.drop len)
    else
      match rest with
      | [] => [.unknown t 0]
      | len :: r2 =>
        if r2.length < len then []
        else .unknown t len :: parseTxExtraGo budget (r2.drop len)

/-- `codec.rs` `parse_tx_extra` on the decoded bytes.  The source returns
`Ok` for every valid-hex input; the byte-level scan is total. -/
def parse_tx_extra (bytes : List Nat) : List TxExtraTag :=
  parseTxExtraGo bytes.length bytes

/-- The result of analysing one transaction (`codec.rs`, `struct TxAnalysis`). -/
structure TxAnalysis where
  version : Nat
  num_inputs : Nat
  num_outputs : Nat
  ring_sizes : List Nat
  bp_plus : Bool
  bp_total_bytes : Nat
  tx_extra_tags : List TxExtraTag

/-- `codec.rs` `analyze_tx` (total in the model: `estimate_bp` never fails and
the byte-level extra parse is total). -/
def analyze_tx (tx : TxJson) : TxAnalysis :=
  { version := tx.version
    num_inputs := tx.vin.length
    num_outputs := tx.vout.length
    ring_sizes := extract_ring_sizes tx.vin
    bp_plus := (estimate_bp tx.rctsig_prunable).1
    bp_total_bytes := (estimate_bp tx.rctsig_prunable).2
    tx_extra_tags := parse_tx_extra tx.extra }

/-! ### The tx-extra grammar as the specification states it (for claim C6)

A second definition, written from §4.10 of the spec: a tagged,
length-prefixed stream read field by field; a truncated field stops the
parse cleanly.  Following the spec's own example, a trailing unknown tag
with no room for its length byte yields `Unknown(t, 0)`. -/

/-- Read one field of tag `t` from `rest` per the spec's grammar: the parsed
tag (`none` for padding) and the remaining bytes, or `none` when the field
is truncated. -/
def specReadField (t : Nat) (rest : List Nat) : Option (Option TxExtraTag × List Nat) :=
  if t = 0 then some (none, rest)
  else if t = 1 then
    if 32 ≤ rest.length then some (some (.pubKey (rest.take 32)), rest.drop 32) else none
  else if t = 2 then
    match rest with
    | len :: r2 =>
      if len ≤ r2.length then some (some (.nonce (r2.take len)), r2.drop len) else none
    | [] => none
  else if t = 4 then
    match rest with
    | len :: r2 =>
      if len ≤ r2.length then some (some (.additionalPubKeys (len / 32)), r2.drop len)
      else none
    | [] => none
  else
    match rest with
    | len :: r2 =>
      if len ≤ r2.length then some (some (.unknown t len), r2.drop len) else none
    | [] => some (some (.unknown t 0), [])

/-- The spec-side stream parse, with the same structural budget device. -/
def specTxExtraGo : Nat → List Nat → List TxExtraTag
  | 0, _ => []
  | _, [] => []
  | budget + 1, t :: rest =>
    match specReadField t rest with
    | none => []
    | some (some tag, r2) => tag :: specTxExtraGo budget r2
    | some (none, r2) => specTxExtraGo budget r2

/-- The tx-extra grammar exactly as §4.10 of the spec states it. -/
def parseTxExtraSpec (bytes : List Nat) : List TxExtraTag :=
  specTxExtraGo bytes.length bytes

/-! ## rpc.rs: the get_transactions response -/

/-- `rpc.rs` `GetTransactionsResult` (the `status` field, checked by the
client itself, is not part of the worker logic modelled here).  Hashes and
JSON blobs are opaque tokens. -/
structure GetTransactionsResult where
  txs_as_json : List Nat
  missed_tx : List Nat

/-! ## work_tx.rs: per-block transaction fetching -/

/-- The slice requested at offset `i` with chunk size `chunk`:
`hashes[i .. min (i+chunk) len)`. -/
def adaptSlice (hashes : List Nat) (i chunk : Nat) : List Nat :=
  (hashes.drop i).take (min (i + chunk) hashes.length - i)

/-- The loop of `fetch.rs` `fetch_txs_adaptive`, with an explicit budget of
remaining iterations standing for the loop's (conditional) termination, and
a trace of the issued requests as `(offset, size)` pairs.  Per iteration:
request the slice `[i, min (i+chunk) N)`; on any `missed_tx`, halve the
chunk (minimum 10) and retry at the same offset; otherwise append the
returned blobs, advance to the slice end, and grow the chunk by 10 up
to 300. -/
def adaptGo (daemon : List Nat → GetTransactionsResult) (hashes : List Nat) :
    Nat → Nat → Nat → List Nat → List (Nat × Nat) →
    Option (List Nat × List (Nat × Nat))
  | 0, _, _, _, _ => none
  | budget + 1, i, chunk, acc, reqs =>
    if i < hashes.length then
      if (daemon (adaptSlice hashes i chunk)).missed_tx.isEmpty then
        adaptGo daemon hashes budget (min (i + chunk) hashes.length)
          (if chunk < 300 then chunk + 10 else chunk)
          (acc ++ (daemon (adaptSlice hashes i chunk)).txs_as_json)
          (reqs ++ [(i, min (i + chunk) hashes.length - i)])
      else
        adaptGo daemon hashes budget i (max (chunk / 2) 10) acc
          (reqs ++ [(i, min (i + chunk) hashes.length - i)])
    else
      some (acc, reqs)

/-- `fetch.rs` `fetch_txs_adaptive`: start at offset 0 with chunk
`max start_chunk 10`.  The result also carries the request trace; `none`
records an exhausted iteration budget. -/
def fetch_txs_adaptive (daemon : List Nat → GetTransactionsResult) (hashes : List Nat)
    (start_chunk : Nat) (budget : Nat) : Option (List Nat × List (Nat × Nat)) :=
  adaptGo daemon hashes budget 0 (max start_chunk 10) [] []

/-- The daemon model of claim C4: any requested chunk larger than `K` comes
back entirely missed, any chunk of size at most `K` comes back complete and
in request order (`f` maps a hash to its transaction JSON). -/
def GoodDaemon (daemon : List Nat → GetTransactionsResult) (K : Nat) (f : Nat → Nat) : Prop :=
  (∀ s : List Nat, K < s.length → (daemon s).missed_tx ≠ []) ∧
  (∀ s : List Nat, s.length ≤ K → (daemon s).missed_tx = [] ∧ (daemon s).txs_as_json = s.map f)

/-! ## reorg.rs: reorg healing -/

/-- Failure modes of `heal_reorg` (`reorg.rs`): the finality-window guard,
a missing stored block, a failed daemon header fetch (including an
undecodable hash). -/
inductive HealErr where
  | tooDeep
  | missingBlock
  | rpcFail
deriving DecidableEq, Repr

/-- The relational store as the healer touches it: stored block hash by
height, chain-tip hash by height, the mempool membership, and the tx hashes
recorded at each height (the `txs` table grouped by `block_height`). -/
structure StoreState where
  blocks : Int → Option Nat
  chainTips : Int → Option Nat
  mempool : Nat → Bool
  txsAt : Int → List Nat

/-- The walk-back loop of `heal_reorg` (`reorg.rs` lines 20-46): at height
`h`, the stored hash is read first (entry code for `start-1`, loop tail for
the rest), then the `steps > finality_window` guard fires, then the daemon
header is fetched and compared.  The budget is the number of daemon fetches
the guard still allows, `(finality_window + 1).toNat` at entry. -/
def findForkGo (daemon : Int → Option Nat) (blocks : Int → Option Nat) :
    Nat → Int → Except HealErr Int
  | budget, h =>
    match blocks h with
    | none => .error .missingBlock
    | some dbHash =>
      match budget with
      | 0 => .error .tooDeep
      | budget + 1 =>
        match daemon h with
        | none => .error .rpcFail
        | some liveHash =>
          if liveHash = dbHash then .ok h
          else findForkGo daemon blocks budget (h - 1)

/-- The fork search of `heal_reorg`: the height at which the loop breaks
(the last height whose stored hash the daemon confirms). -/
def findFork (daemon : Int → Option Nat) (blocks : Int → Option Nat)
    (finality_window : Int) (start : Int) : Except HealErr Int :=
  findForkGo daemon blocks (finality_window + 1).toNat (start - 1)

/-- The tx hashes recorded at the `n` heights `from, from+1, …, from+n-1`
(the requeue loop of `reorg.rs` lines 61-65 reads them before anything is
deleted). -/
def txsInRange (txsAt : Int → List Nat) (lo : Int) : Nat → List Nat
  | 0 => []
  | n + 1 => txsAt lo ++ txsInRange txsAt (lo + 1) n

/-- The store mutation of the healing transaction (`reorg.rs` lines 55-80):
upsert into the mempool every tx recorded at heights `[fork, start)`,
delete `chain_tips` rows with height ≥ fork, delete `blocks` rows with
height ≥ fork (the schema's FK cascade removes the child tx rows, emptying
`txsAt` there). -/
def applyReorg (st : StoreState) (fork start : Int) : StoreState :=
  let requeued := txsInRange st.txsAt fork (start - fork).toNat
  { blocks := fun k => if fork ≤ k then none else st.blocks k
    chainTips := fun k => if fork ≤ k then none else st.chainTips k
    mempool := fun t => st.mempool t || requeued.contains t
    txsAt := fun k => if fork ≤ k then [] else st.txsAt k }

/-- `reorg.rs` `heal_reorg`: find the fork, then apply the one-transaction
rollback; any error leaves the store untouched (the SQL transaction is
opened only after the walk succeeds). -/
def heal_reorg (start : Int) (st : StoreState) (daemon : Int → Option Nat)
    (finality_window : Int) : Except HealErr (Int × StoreState) :=
  match findFork daemon st.blocks finality_window start with
  | .error e => .error e
  | .ok h => .ok (h + 1, applyReorg st (h + 1) start)

/-! ## work_sched.rs: the scheduler -/

/-- The work item emitted per height (`pipeline.rs` `SchedMsg`, without the
wall-clock `started` stamp). -/
structure SchedMsg where
  height : Int
  tip_height : Int
  finalized_height : Int
deriving DecidableEq, Repr

/-- The `next_height` before clamping (`work_sched.rs` lines 45-49):
`start_height` if given, else checkpoint + 1. -/
def schedRaw (start_height : Option Int) (checkpoint : Int) : Int :=
  match start_height with
  | some s => s
  | none => checkpoint + 1

/-- The initial `next_height` (`work_sched.rs` lines 45-52): `schedRaw`,
clamped to ≥ 0. -/
def schedInit (start_height : Option Int) (checkpoint : Int) : Int :=
  if schedRaw start_height checkpoint < 0 then 0 else schedRaw start_height checkpoint

/-- The `limit` guard at the top of the scheduler loop. -/
def limitReached (limit : Option Nat) (processed : Nat) : Bool :=
  match limit with
  | some l => l ≤ processed
  | none => false

/-- The scheduler loop (`work_sched.rs` lines 54-103) driven by a finite
list of tip polls (each element one `get_block_count − 1` result; the
source polls forever, sleeping 2 s between unproductive polls).  A poll
whose tip is below `next_height` emits nothing (the wait branch); otherwise
a `SchedMsg` is emitted with `finalized = tip −(saturating) finality_window`
and `next_height` advances.  The guard re-check per poll is observably the
per-emission check of the source, since nothing changes it between
emissions. -/
def schedGo (finality_window : Nat) (limit : Option Nat) :
    List Nat → Int → Nat → List SchedMsg
  | [], _, _ => []
  | tip :: rest, next, processed =>
    if limitReached limit processed then []
    else if next ≤ (tip : Int) then
      { height := next
        tip_height := (tip : Int)
        finalized_height := ((tip - finality_window : Nat) : Int) } ::
        schedGo finality_window limit rest (next + 1) (processed + 1)
    else
      schedGo finality_window limit rest next processed

/-- `work_sched.rs` `run`, as the list of messages it emits for a given
sequence of tip polls. -/
def sched_run (finality_window : Nat) (limit : Option Nat) (start_height : Option Int)
    (checkpoint : Int) (tips : List Nat) : List SchedMsg :=
  schedGo finality_window limit tips (schedInit start_height checkpoint) 0

/-! ## work_block.rs: the header fetcher -/

/-- A block header as the fetcher handles it (height plus an opaque rest). -/
structure Header where
  height : Nat
  hash : Nat
deriving DecidableEq, Repr

/-- The mutable state of `HeaderFetcher`: the pre-fetched buffer, the ranged
mode flag, and the batch size (`max batch 1` at construction). -/
structure HFState where
  buffered : List Header
  use_range : Bool
  batch_size : Nat
deriving DecidableEq, Repr

/-- The daemon as the header fetcher sees it: a ranged headers call and a
single-header call, `none` standing for a failed call. -/
structure HeaderOracle where
  range : Nat → Nat → Option (List Header)
  single : Nat → Option Header

/-- The RPC requests a fetch step can issue. -/
inductive HReq where
  | range (s e : Nat)
  | single (h : Nat)
deriving DecidableEq, Repr

/-- Whether a request is a ranged-headers request. -/
def HReq.isRange : HReq → Bool
  | .range _ _ => true
  | .single _ => false

/-- `HeaderFetcher::take_buffered` (`work_block.rs` lines 257-276): pop
buffered headers with height < h; then pop and return the front exactly
when its height is h. -/
def take_buffered (buf : List Header) (h : Nat) : Option Header × List Header :=
  match buf.dropWhile (fun hd => hd.height < h) with
  | hd :: rest => if hd.height = h then (some hd, rest) else (none, hd :: rest)
  | [] => (none, [])

/-- `HeaderFetcher::fetch` (`work_block.rs` lines 203-233), returning the
header (or `none` for a failed single fetch), the successor state, and the
requests issued.  In ranged mode: serve from the buffer when possible; else
bulk-fetch `[h, h + batch − 1]` and retry the buffer; on a bulk failure or
a batch missing h, clear the buffer, drop to single-header mode for good,
and fall through to a single fetch. -/
def hfetch (o : HeaderOracle) (st : HFState) (h : Nat) :
    Option Header × HFState × List HReq :=
  if st.use_range then
    match take_buffered st.buffered h with
    | (some hd, buf2) => (some hd, { st with buffered := buf2 }, [])
    | (none, _) =>
      let e := h + (st.batch_size - 1)
      match o.range h e with
      | some headers =>
        match take_buffered headers h with
        | (some hd, buf2) => (some hd, { st with buffered := buf2 }, [.range h e])
        | (none, _) =>
          (o.single h, { st with use_range := false, buffered := [] },
            [.range h e, .single h])
      | none =>
        (o.single h, { st with use_range := false, buffered := [] },
          [.range h e, .single h])
  else
    (o.single h, st, [.single h])

/-- A run of fetches for successive requested heights, accumulating the
issued requests (the block-worker loop calls `fetch` once per job). -/
def hfetchMany (o : HeaderOracle) : HFState → List Nat → HFState × List HReq
  | st, [] => (st, [])
  | st, h :: hs =>
    let step := hfetch o st h
    let rest := hfetchMany o step.2.1 hs
    (rest.1, step.2.2 ++ rest.2)

/-! ## checkpoint.rs: the checkpoint singleton -/

/-- The `ingestor_checkpoint` table: at most the one row id = 1, holding
`(last_height, finalized_height)`. -/
def CkptTable := Option (Int × Int)

/-- `Checkpoint::get_state` (`checkpoint.rs` lines 20-43): `(0, 0)` when no
row exists, else the row's pair. -/
def ckpt_get_state (t : CkptTable) : Int × Int :=
  match t with
  | none => (0, 0)
  | some p => p

/-- The first statement of `Checkpoint::set`: INSERT `(1, last, NOW())`
ON CONFLICT (id) DO UPDATE SET `last_height`.  The insert names no
`finalized_height`, so a fresh row takes the column's schema default.
Modelled from the spec: the migrations are not among the staged sources;
§4.11's singleton whose absent state reads as `(0, 0)` fixes the default
at 0 (the roundtrip below is independent of this value). -/
def ckptInsertLast (t : CkptTable) (last : Int) : CkptTable :=
  match t with
  | none => some (last, 0)
  | some (_, fin) => some (last, fin)

/-- The second statement of `Checkpoint::set`: UPDATE `finalized_height`
WHERE id = 1. -/
def ckptUpdateFinalized (t : CkptTable) (fin : Int) : CkptTable :=
  match t with
  | none => none
  | some (last, _) => some (last, fin)

/-- `Checkpoint::set` (`checkpoint.rs` lines 49-75): the two statements in
order. -/
def ckpt_set (t : CkptTable) (last fin : Int) : CkptTable :=
  ckptUpdateFinalized (ckptInsertLast t last) fin

/-! ## work_persist.rs: block preparation -/

/-- The fields of a `TxMsg` that `prepare_block` reads (`pipeline.rs`);
JSON blobs and hashes are opaque tokens. -/
structure TxMsgModel where
  miner_tx_json : Option Nat
  miner_tx_hash : Option Nat
  ordered_tx_hashes : List Nat
  tx_jsons : List Nat

/-- Error of the per-tx preparation (`prepare_tx` can fail on malformed
JSON, a missing hash, or an overflow; the model keeps it abstract). -/
inductive PrepErr where
  | prepFailed
deriving DecidableEq, Repr

/-- `work_persist.rs` `prepare_block` (lines 39-66), parametric in the
per-tx preparation `prepTx json fallback_hash`: push the miner tx when both
its JSON and hash are present (each absence is only a warning), then walk
`ordered_tx_hashes.zip(tx_jsons)` — the element-wise pairing up to the
shorter list; a length mismatch is only a warning (lines 52-59). -/
def prepare_block {α : Type} (prepTx : Nat → Option Nat → Except PrepErr α)
    (msg : TxMsgModel) : Except PrepErr (List α) := do
  let base : List α ←
    match msg.miner_tx_json with
    | some json =>
      match msg.miner_tx_hash with
      | some h => (prepTx json (some h)).map (fun t => [t])
      | none => pure []
    | none => pure []
  let rest ← (msg.ordered_tx_hashes.zip msg.tx_jsons).mapM
    (fun p => prepTx p.2 (some p.1))
  pure (base ++ rest)

/-! ## Concrete instances used by the witnesses and counterexamples -/

/-- A coinbase-like transaction: no ring inputs and a null
`rctsig_prunable` section. -/
def nullPrunableTx : TxJson :=
  { version := 2
    vin := []
    vout := [Json.obj []]
    extra := []
    rctsig_prunable := Json.null
    unlock_time := 0 }

/-- A per-tx preparation result for the C10 witness: the pair of the inputs. -/
def c10F : Nat → Option Nat → Nat × Option Nat := fun json h => (json, h)

/-- An always-succeeding per-tx preparation for the C10 witness. -/
def c10PrepTx : Nat → Option Nat → Except PrepErr (Nat × Option Nat) :=
  fun json h => .ok (c10F json h)

/-- A `TxMsg` with three hashes but only two JSON blobs (and a miner tx). -/
def c10Msg : TxMsgModel :=
  { miner_tx_json := some 9
    miner_tx_hash := some 8
    ordered_tx_hashes := [1, 2, 3]
    tx_jsons := [10, 20] }

/-- The tx-extra bytes of the spec's golden example:
`01 <32-byte pubkey> 02 04 de ad be ef 04 40 <64 bytes> ff`. -/
def c6Bytes : List Nat :=
  [1] ++ List.replicate 32 170 ++ [2, 4, 222, 173, 190, 239, 4, 64] ++
    List.replicate 64 187 ++ [255]

/-- The stored chain of the reorg-healing scenario (§8 of the spec): blocks
100..103 with distinct hashes, chain tips at the same heights, an empty
mempool, and one tx recorded at height 102. -/
def c1Store : StoreState :=
  { blocks := fun k =>
      if k = 100 then some 1
      else if k = 101 then some 2
      else if k = 102 then some 3
      else if k = 103 then some 4
      else none
    chainTips := fun k => if 100 ≤ k ∧ k ≤ 103 then some 0 else none
    mempool := fun _ => false
    txsAt := fun k => if k = 102 then [7] else [] }

/-- The daemon of the reorg scenario: different hashes at 102 and 101, the
stored hash at 100. -/
def c1Daemon : Int → Option Nat := fun k =>
  if k = 100 then some 1
  else if k = 101 then some 20
  else if k = 102 then some 30
  else none

/-- The C4 witness daemon: chunks of more than 10 hashes come back entirely
missed, chunks of at most 10 come back complete in request order. -/
def c4Daemon : List Nat → GetTransactionsResult := fun s =>
  if s.length ≤ 10 then { txs_as_json := s, missed_tx := [] }
  else { txs_as_json := [], missed_tx := s }

/-- A stored chain for the too-deep scenario: blocks 100..103 all with
hash 1. -/
def c3Store : StoreState :=
  { blocks := fun k => if 100 ≤ k ∧ k ≤ 103 then some 1 else none
    chainTips := fun _ => none
    mempool := fun _ => false
    txsAt := fun _ => [] }

/-- A daemon that disagrees with every stored hash. -/
def c3Daemon : Int → Option Nat := fun _ => some 999

/-! ## Theorems -/

/-- Helper: when the walk-back loop breaks at `hFork`, the daemon confirmed
the stored hash there, and every height it passed on the way down from
`h0` had both hashes present and different. -/
theorem findForkGo_ok (daemon blocks : Int → Option Nat) :
    ∀ (budget : Nat) (h0 hFork : Int),
      findForkGo daemon blocks budget h0 = .ok hFork →
      hFork ≤ h0 ∧
      (∃ hv, blocks hFork = some hv ∧ daemon hFork = some hv) ∧
      (∀ k : Int, hFork < k → k ≤ h0 →
        ∃ dv bv, daemon k = some dv ∧ blocks k = some bv ∧ dv ≠ bv) := by
  intro budget
  induction budget with
  | zero =>
    intro h0 hFork hok
    unfold findForkGo at hok
    cases hb : blocks h0 with
    | none => rw [hb] at hok; exact Except.noConfusion hok
    | some bv => rw [hb] at hok; exact Except.noConfusion hok
  | succ b ih =>
    intro h0 hFork hok
    unfold findForkGo at hok
    cases hb : blocks h0 with
    | none => rw [hb] at hok; exact Except.noConfusion hok
    | some bv =>
      rw [hb] at hok
      dsimp only at hok
      cases hd : daemon h0 with
      | none => rw [hd] at hok; exact Except.noConfusion hok
      | some dv =>
        rw [hd] at hok
        dsimp only at hok
        by_cases heq : dv = bv
        · rw [if_pos heq] at hok
          have hf := Except.ok.inj hok
          subst hf
          exact ⟨le_refl _, ⟨bv, hb, heq ▸ hd⟩,
            fun k hk1 hk2 => absurd (lt_of_lt_of_le hk1 hk2) (lt_irrefl _)⟩
        · rw [if_neg heq] at hok
          obtain ⟨hle, hmatch, hmiss⟩ := ih (h0 - 1) hFork hok
          refine ⟨by omega, hmatch, fun k hk1 hk2 => ?_⟩
          by_cases hk0 : k = h0
          · subst hk0; exact ⟨dv, bv, hd, hb, heq⟩
          · exact hmiss k hk1 (by omega)

/-- Helper: tx membership in the collected range. -/
theorem mem_txsInRange (txsAt : Int → List Nat) :
    ∀ (n : Nat) (lo : Int) (t : Nat),
      t ∈ txsInRange txsAt lo n ↔ ∃ k : Int, lo ≤ k ∧ k < lo + n ∧ t ∈ txsAt k := by
  intro n
  induction n with
  | zero =>
    intro lo t
    constructor
    · intro hmem; exact absurd hmem (List.not_mem_nil t)
    · rintro ⟨k, h1, h2, _⟩
      exact absurd h2 (by push_cast; omega)
  | succ n ih =>
    intro lo t
    simp only [txsInRange, List.mem_append, ih (lo + 1)]
    constructor
    · rintro (hmem | ⟨k, h1, h2, h3⟩)
      · exact ⟨lo, le_refl _, by push_cast; omega, hmem⟩
      · exact ⟨k, by omega, by push_cast at h2 ⊢; omega, h3⟩
    · rintro ⟨k, h1, h2, h3⟩
      by_cases hk : k = lo
      · subst hk; exact .inl h3
      · exact .inr ⟨k, by omega, by push_cast at h2 ⊢; omega, h3⟩

/-- C1: when the walk-back succeeds, `heal_reorg(start)` finds the greatest
height `hFork < start` whose stored hash the daemon confirms (every height
strictly between `hFork` and `start` has both hashes present and
different), and in one transaction the resulting store has every tx
recorded at heights `[hFork+1, start)` re-inserted into the mempool, all
`chain_tips` and `blocks` rows at heights ≥ hFork+1 deleted, and every
block and chain tip at height ≤ hFork unchanged. -/
theorem heal_reorg_rolls_back (start fw hFork : Int) (st : StoreState)
    (daemon : Int → Option Nat)
    (hok : findFork daemon st.blocks fw start = .ok hFork) :
    heal_reorg start st daemon fw = .ok (hFork + 1, applyReorg st (hFork + 1) start) ∧
    (∃ hv, st.blocks hFork = some hv ∧ daemon hFork = some hv) ∧
    (∀ k : Int, hFork < k → k < start →
      ∃ dv bv, daemon k = some dv ∧ st.blocks k = some bv ∧ dv ≠ bv) ∧
    (∀ k : Int, hFork + 1 ≤ k →
      (applyReorg st (hFork + 1) start).blocks k = none ∧
      (applyReorg st (hFork + 1) start).chainTips k = none) ∧
    (∀ k : Int, k ≤ hFork →
      (applyReorg st (hFork + 1) start).blocks k = st.blocks k ∧
      (applyReorg st (hFork + 1) start).chainTips k = st.chainTips k) ∧
    (∀ t : Nat, (applyReorg st (hFork + 1) start).mempool t = true ↔
      st.mempool t = true ∨ ∃ k : Int, hFork + 1 ≤ k ∧ k < start ∧ t ∈ st.txsAt k) := by
  obtain ⟨hle, hmatch, hmiss⟩ :=
    findForkGo_ok daemon st.blocks (fw + 1).toNat (start - 1) hFork hok
  refine ⟨by simp [heal_reorg, hok], hmatch,
    fun k hk1 hk2 => hmiss k hk1 (by omega), ?_, ?_, ?_⟩
  · intro k hk
    constructor <;> simp [applyReorg, if_pos hk]
  · intro k hk
    have hk2 : ¬ (hFork + 1 ≤ k) := by omega
    constructor <;> simp [applyReorg, if_neg hk2]
  · intro t
    simp only [applyReorg, Bool.or_eq_true]
    have hc : (txsInRange st.txsAt (hFork + 1) (start - (hFork + 1)).toNat).contains t = true ↔
        t ∈ txsInRange st.txsAt (hFork + 1) (start - (hFork + 1)).toNat := by simp
    rw [hc, mem_txsInRange]
    constructor
    · rintro (hmem | ⟨k, h1, h2, h3⟩)
      · exact .inl hmem
      · exact .inr ⟨k, h1, by omega, h3⟩
    · rintro (hmem | ⟨k, h1, h2, h3⟩)
      · exact .inl hmem
      · exact .inr ⟨k, h1, by omega, h3⟩

/-- C1 witness: on the seeded chain 100..103 with the daemon disagreeing at
102 and 101 and agreeing at 100, `heal_reorg(103)` succeeds with fork
height 101, and the tx recorded at height 102 is back in the mempool. -/
theorem heal_reorg_rolls_back_witness :
    heal_reorg 103 c1Store c1Daemon 10 = .ok (100 + 1, applyReorg c1Store (100 + 1) 103) ∧
    ((applyReorg c1Store (100 + 1) 103).mempool 7 = true ↔
      c1Store.mempool 7 = true ∨
        ∃ k : Int, 100 + 1 ≤ k ∧ k < 103 ∧ 7 ∈ c1Store.txsAt k) :=
  ⟨(heal_reorg_rolls_back 103 10 100 c1Store c1Daemon rfl).1,
    (heal_reorg_rolls_back 103 10 100 c1Store c1Daemon rfl).2.2.2.2.2 7⟩

/-- Helper: when every height the walk-back can reach within its budget has
both hashes present and different, the loop runs its budget out and fails
with the too-deep error. -/
theorem findForkGo_tooDeep (daemon blocks : Int → Option Nat) :
    ∀ (budget : Nat) (h0 : Int),
      (∀ k : Nat, k ≤ budget → (blocks (h0 - k)).isSome) →
      (∀ k : Nat, k < budget →
        ∃ dv bv, daemon (h0 - k) = some dv ∧ blocks (h0 - k) = some bv ∧ dv ≠ bv) →
      findForkGo daemon blocks budget h0 = .error .tooDeep := by
  intro budget
  induction budget with
  | zero =>
    intro h0 hb _
    have h1 := hb 0 (le_refl 0)
    rw [show h0 - ((0 : Nat) : Int) = h0 by push_cast; ring] at h1
    obtain ⟨bv, hbv⟩ := Option.isSome_iff_exists.mp h1
    unfold findForkGo
    rw [hbv]
  | succ b ih =>
    intro h0 hb hm
    obtain ⟨dv, bv, hd, hbv, hne⟩ := hm 0 (Nat.succ_pos b)
    rw [show h0 - ((0 : Nat) : Int) = h0 by push_cast; ring] at hd hbv
    unfold findForkGo
    rw [hbv]
    dsimp only
    rw [hd]
    dsimp only
    rw [if_neg hne]
    apply ih (h0 - 1)
    · intro k hk
      have hshift := hb (k + 1) (by omega)
      rwa [show h0 - ((k + 1 : Nat) : Int) = h0 - 1 - k by push_cast; ring] at hshift
    · intro k hk
      have hshift := hm (k + 1) (by omega)
      rwa [show h0 - ((k + 1 : Nat) : Int) = h0 - 1 - k by push_cast; ring] at hshift

/-- C3: when the daemon's header hash differs from the (present) stored
hash at every one of the `finality_window + 1` heights the walk may visit
— more than `finality_window` consecutive backward steps — `heal_reorg`
fails with the too-deep error, for every store: the error is raised before
the SQL transaction opens, so no store mutation is produced on this path
(the model returns no successor store at all). -/
theorem heal_reorg_too_deep (start fw : Int) (st : StoreState) (daemon : Int → Option Nat)
    (_hfw : 0 ≤ fw)
    (hblocks : ∀ k : Nat, k ≤ (fw + 1).toNat → (st.blocks (start - 1 - k)).isSome)
    (hmm : ∀ k : Nat, k < (fw + 1).toNat →
      ∃ dv bv, daemon (start - 1 - k) = some dv ∧
        st.blocks (start - 1 - k) = some bv ∧ dv ≠ bv) :
    heal_reorg start st daemon fw = .error .tooDeep := by
  have hgo := findForkGo_tooDeep daemon st.blocks (fw + 1).toNat (start - 1) hblocks hmm
  simp [heal_reorg, findFork, hgo]

/-- C3 witness: chain 100..103 stored, finality window 1, daemon
disagreeing everywhere: healing from 103 fails with the too-deep error. -/
theorem heal_reorg_too_deep_witness :
    heal_reorg 103 c3Store c3Daemon 1 = .error .tooDeep :=
  heal_reorg_too_deep 103 1 c3Store c3Daemon (by decide)
    (fun k hk => by
      have hk2 : k ≤ 2 := by simpa using hk
      match k, hk2 with
      | 0, _ => decide
      | 1, _ => decide
      | 2, _ => decide)
    (fun k hk => by
      have hk2 : k < 2 := by simpa using hk
      match k, hk2 with
      | 0, _ => exact ⟨999, 1, rfl, by decide, by decide⟩
      | 1, _ => exact ⟨999, 1, rfl, by decide, by decide⟩)

/-- Helper: a per-tx preparation that always succeeds makes `mapM` succeed
with the mapped list. -/
theorem mapM_prepTx_ok {α : Type} (prepTx : Nat → Option Nat → Except PrepErr α)
    (f : Nat → Option Nat → α) (hp : ∀ j h, prepTx j h = .ok (f j h)) :
    ∀ l : List (Nat × Nat),
      l.mapM (fun p => prepTx p.2 (some p.1)) = .ok (l.map fun p => f p.2 (some p.1)) := by
  intro l
  induction l with
  | nil => rfl
  | cons x xs ih =>
    rw [List.mapM_cons, hp, ih]
    rfl

/-- Helper: the first components of a zip are the first list truncated to
the second list's length. -/
theorem map_fst_zip_take (l1 l2 : List Nat) :
    (l1.zip l2).map Prod.fst = l1.take l2.length := by
  induction l1 generalizing l2 with
  | nil => simp
  | cons x xs ih =>
    cases l2 with
    | nil => simp
    | cons y ys => simp [ih]

/-- Helper: both tx-extra scans stop on an empty byte list. -/
theorem parseTxExtraGo_nil (b : Nat) : parseTxExtraGo b [] = [] := by
  cases b <;> rfl

/-- Helper: the spec-side scan stops on an empty byte list. -/
theorem specTxExtraGo_nil (b : Nat) : specTxExtraGo b [] = [] := by
  cases b <;> rfl

/-- Helper: the source-side tx-extra scan and the spec-side grammar agree
step by step, whatever the iteration budget. -/
theorem parseGo_eq_specGo :
    ∀ (budget : Nat) (bs : List Nat), parseTxExtraGo budget bs = specTxExtraGo budget bs := by
  intro budget
  induction budget with
  | zero => intro bs; cases bs <;> rfl
  | succ b ih =>
    intro bs
    cases bs with
    | nil => rfl
    | cons t rest =>
      by_cases h0 : t = 0
      · subst h0
        simpa [parseTxExtraGo, specTxExtraGo, specReadField] using ih rest
      · by_cases h1 : t = 1
        · subst h1
          by_cases hl : rest.length < 32
          · simp [parseTxExtraGo, specTxExtraGo, specReadField, hl, Nat.not_le.mpr hl]
          · simp [parseTxExtraGo, specTxExtraGo, specReadField, hl,
              Nat.le_of_not_lt hl, ih]
        · cases rest with
          | nil =>
            by_cases h2 : t = 2
            · subst h2; simp [parseTxExtraGo, specTxExtraGo, specReadField]
            · by_cases h4 : t = 4
              · subst h4; simp [parseTxExtraGo, specTxExtraGo, specReadField]
              · simp [parseTxExtraGo, specTxExtraGo, specReadField, h0, h1, h2, h4,
                  specTxExtraGo_nil]
          | cons len r2 =>
            by_cases hl : r2.length < len
            · by_cases h2 : t = 2
              · subst h2
                simp [parseTxExtraGo, specTxExtraGo, specReadField, hl, Nat.not_le.mpr hl]
              · by_cases h4 : t = 4
                · subst h4
                  simp [parseTxExtraGo, specTxExtraGo, specReadField, hl, Nat.not_le.mpr hl]
                · simp [parseTxExtraGo, specTxExtraGo, specReadField, h0, h1, h2, h4,
                    hl, Nat.not_le.mpr hl]
            · by_cases h2 : t = 2
              · subst h2
                simp [parseTxExtraGo, specTxExtraGo, specReadField, hl,
                  Nat.le_of_not_lt hl, ih]
              · by_cases h4 : t = 4
                · subst h4
                  simp [parseTxExtraGo, specTxExtraGo, specReadField, hl,
                    Nat.le_of_not_lt hl, ih]
                · simp [parseTxExtraGo, specTxExtraGo, specReadField, h0, h1, h2, h4,
                    hl, Nat.le_of_not_lt hl, ih]

/-- C6: on every byte string (any valid-hex input), `parse_tx_extra` yields
exactly the tag list of the spec's tagged, length-prefixed grammar —
padding, 32-byte pubkey, length-prefixed nonce, length-prefixed additional
pubkeys reported as len/32, length-prefixed unknown; a truncated field
stops the parse with the completed tags and no error — and the spec's
golden bytes parse to
`[PubKey, Nonce(4 bytes), AdditionalPubKeys(2), Unknown(0xff, 0)]`. -/
theorem parse_tx_extra_matches_grammar :
    (∀ bytes : List Nat, parse_tx_extra bytes = parseTxExtraSpec bytes) ∧
    parse_tx_extra c6Bytes =
      [.pubKey (List.replicate 32 170), .nonce [222, 173, 190, 239],
        .additionalPubKeys 2, .unknown 255 0] := by
  refine ⟨fun bytes => parseGo_eq_specGo bytes.length bytes, ?_⟩
  decide

/-- Helper: invariant of the scheduler loop — consecutive heights from
`next`, every message within the tip and with the saturated finalized
height, and at most `l − processed` further emissions under a limit. -/
theorem schedGo_spec (fw : Nat) (limit : Option Nat) :
    ∀ (tips : List Nat) (next : Int) (processed : Nat),
      (∀ (j : Nat) (m : SchedMsg), (schedGo fw limit tips next processed)[j]? = some m →
        m.height = next + j) ∧
      (∀ m ∈ schedGo fw limit tips next processed,
        m.height ≤ m.tip_height ∧ m.finalized_height = max 0 (m.tip_height - fw)) ∧
      (∀ l, limit = some l → (schedGo fw limit tips next processed).length ≤ l - processed) := by
  intro tips
  induction tips with
  | nil =>
    intro next processed
    refine ⟨?_, ?_, ?_⟩ <;> simp [schedGo]
  | cons tip rest ih =>
    intro next processed
    by_cases hl : limitReached limit processed
    · refine ⟨?_, ?_, ?_⟩ <;> simp [schedGo, hl]
    · by_cases hle : next ≤ (tip : Int)
      · obtain ⟨ih1, ih2, ih3⟩ := ih (next + 1) (processed + 1)
        refine ⟨?_, ?_, ?_⟩
        · intro j m hm
          simp only [schedGo, if_neg hl, if_pos hle] at hm
          cases j with
          | zero =>
            rw [List.getElem?_cons_zero] at hm
            cases hm
            simp
          | succ j =>
            rw [List.getElem?_cons_succ] at hm
            have := ih1 j m hm
            rw [this]
            push_cast
            ring
        · intro m hm
          simp only [schedGo, if_neg hl, if_pos hle, List.mem_cons] at hm
          rcases hm with rfl | hm
          · refine ⟨hle, ?_⟩
            simp only []
            rw [max_def]
            split <;> omega
          · exact ih2 m hm
        · intro l hl2
          have hlen := ih3 l hl2
          have hpl : ¬ l ≤ processed := by simpa [limitReached, hl2] using hl
          simp only [schedGo, if_neg hl, if_pos hle, List.length_cons]
          omega
      · obtain ⟨ih1, ih2, ih3⟩ := ih next processed
        refine ⟨?_, ?_, ?_⟩ <;> simp only [schedGo, if_neg hl, if_neg hle]
        · exact ih1
        · exact ih2
        · exact ih3

/-- C7: the scheduler's emissions have strictly increasing, consecutive
heights starting at `start_height` when given, else at checkpoint + 1,
clamped to ≥ 0 (`schedInit`); every message has `height ≤ tip_height` and
`finalized_height = max 0 (tip_height − finality_window)`; and under a
configured limit at most `limit` messages are ever emitted. -/
theorem scheduler_emissions (fw : Nat) (limit : Option Nat) (start_height : Option Int)
    (checkpoint : Int) (tips : List Nat) :
    0 ≤ schedInit start_height checkpoint ∧
    (∀ (j : Nat) (m : SchedMsg),
      (sched_run fw limit start_height checkpoint tips)[j]? = some m →
      m.height = schedInit start_height checkpoint + j) ∧
    (∀ m ∈ sched_run fw limit start_height checkpoint tips,
      m.height ≤ m.tip_height ∧ m.finalized_height = max 0 (m.tip_height - fw)) ∧
    (∀ l, limit = some l →
      (sched_run fw limit start_height checkpoint tips).length ≤ l) := by
  obtain ⟨h1, h2, h3⟩ := schedGo_spec fw limit tips (schedInit start_height checkpoint) 0
  refine ⟨?_, h1, h2, fun l hl => by simpa using h3 l hl⟩
  unfold schedInit
  split <;> omega

/-- C8: in ranged mode a request for height h first discards buffered
headers below h and serves the front exactly when its height is h, issuing
no request; a bulk failure, or a bulk batch that does not contain h, clears
the buffer and drops the fetcher to single-header mode; and the downgrade
is permanent — a fetch step never turns `use_range` back on, and once it is
off no later step issues a ranged request. -/
theorem header_fetcher_downgrade (o : HeaderOracle) (st : HFState) (h : Nat)
    (hs : List Nat) :
    (∀ (hd : Header) (buf2 : List Header), st.use_range = true →
      take_buffered st.buffered h = (some hd, buf2) →
      hfetch o st h = (some hd, { st with buffered := buf2 }, [])) ∧
    (∀ (buf : List Header) (hd : Header) (buf2 : List Header),
      take_buffered buf h = (some hd, buf2) →
      hd.height = h ∧ buf.dropWhile (fun x => x.height < h) = hd :: buf2) ∧
    (st.use_range = true → (take_buffered st.buffered h).1 = none →
      o.range h (h + (st.batch_size - 1)) = none →
      (hfetch o st h).2.1.use_range = false ∧ (hfetch o st h).2.1.buffered = []) ∧
    (∀ headers : List Header, st.use_range = true →
      (take_buffered st.buffered h).1 = none →
      o.range h (h + (st.batch_size - 1)) = some headers →
      (take_buffered headers h).1 = none →
      (hfetch o st h).2.1.use_range = false ∧ (hfetch o st h).2.1.buffered = []) ∧
    ((hfetch o st h).2.1.use_range = true → st.use_range = true) ∧
    (st.use_range = false →
      (hfetchMany o st hs).1.use_range = false ∧
      ∀ r ∈ (hfetchMany o st hs).2, r.isRange = false) := by
  have heta : ∀ (p : Option Header × List Header) (hfst : p.1 = none),
      ∃ b2, p = (none, b2) := fun p hfst => ⟨p.2, by rw [← hfst]⟩
  refine ⟨?_, ?_, ?_, ?_, ?_, ?_⟩
  · intro hd buf2 hur htb
    simp [hfetch, hur, htb]
  · intro buf hd buf2 htb
    unfold take_buffered at htb
    cases hdw : buf.dropWhile (fun x => x.height < h) with
    | nil =>
      rw [hdw] at htb
      exact Prod.noConfusion htb (fun h1 _ => Option.noConfusion h1)
    | cons x restBuf =>
      rw [hdw] at htb
      dsimp only at htb
      by_cases hx : x.height = h
      · rw [if_pos hx] at htb
        obtain ⟨h1, h2⟩ := Prod.mk.injEq .. ▸ htb
        cases Option.some.inj h1
        exact ⟨hx, by rw [h2]⟩
      · rw [if_neg hx] at htb
        exact Prod.noConfusion htb (fun h1 _ => Option.noConfusion h1)
  · intro hur htb hrange
    obtain ⟨b2, hp⟩ := heta (take_buffered st.buffered h) htb
    simp [hfetch, hur, hp, hrange]
  · intro headers hur htb hrange htb2
    obtain ⟨b2, hp⟩ := heta (take_buffered st.buffered h) htb
    obtain ⟨b3, hp2⟩ := heta (take_buffered headers h) htb2
    simp [hfetch, hur, hp, hrange, hp2]
  · intro hx
    by_cases hur : st.use_range = true
    · exact hur
    · have hur2 : st.use_range = false := by
        revert hur; cases st.use_range <;> simp
      rw [show (hfetch o st h).2.1 = st by simp [hfetch, hur2]] at hx
      exact hx
  · intro hur
    induction hs generalizing st with
    | nil => exact ⟨hur, by simp [hfetchMany]⟩
    | cons h0 rest ih =>
      have hstep : hfetch o st h0 = (o.single h0, st, [.single h0]) := by
        simp [hfetch, hur]
      obtain ⟨ihf, ihr⟩ := ih st hur
      refine ⟨?_, ?_⟩
      · simpa [hfetchMany, hstep] using ihf
      · intro r hr
        simp only [hfetchMany, hstep, List.mem_append] at hr
        rcases hr with hr | hr
        · rcases List.mem_singleton.mp hr with rfl
          rfl
        · exact ihr r hr

/-- C9: `get_state()` reads `(0, 0)` from an absent checkpoint row, and
after `set(a, b)` — the conflict-upsert of `last_height` followed by the
`finalized_height` update — `get_state()` reads exactly `(a, b)`, whatever
row was there before. -/
theorem checkpoint_roundtrip :
    (∀ (t : CkptTable) (last fin : Int), ckpt_get_state (ckpt_set t last fin) = (last, fin)) ∧
    ckpt_get_state (none : CkptTable) = (0, 0) := by
  refine ⟨fun t last fin => ?_, rfl⟩
  cases t with
  | none => rfl
  | some p => cases p; rfl

/-- C5: the claim says `bp_plus` from the full analysis path is true iff the
`rctsig_prunable` section has a `bp_plus` or `bp` field, false on null or
neither, and that the analytics-disabled heuristic agrees.  The code's
`estimate_bp` instead returns `true` in every branch — in particular on a
null section (a coinbase tx) and on an object with neither field — while
the heuristic correctly returns `false` there, so the two paths diverge. -/
theorem estimate_bp_always_true :
    (∀ p : Json, (estimate_bp p).1 = true) ∧
    (analyze_tx nullPrunableTx).bp_plus = true ∧
    heuristic_bp_plus Json.null = false ∧
    (estimate_bp (Json.obj [])).1 = true ∧
    heuristic_bp_plus (Json.obj []) = false := by
  refine ⟨fun p => ?_, rfl, rfl, rfl, rfl⟩
  unfold estimate_bp
  split
  · rfl
  · split
    · rfl
    · split
      · rfl
      · rfl

/-- C10: when every per-tx preparation succeeds, a `TxMsg` whose
`ordered_tx_hashes` and `tx_jsons` differ in length does not make
`prepare_block` fail: the two lists are paired element-wise up to the
shorter length (the zip), the surplus entries are dropped, and the prepared
block is the miner tx (when json and hash are both present) followed by
exactly that prefix of transactions. -/
theorem prepare_block_truncates {α : Type} (prepTx : Nat → Option Nat → Except PrepErr α)
    (f : Nat → Option Nat → α) (msg : TxMsgModel)
    (hp : ∀ j h, prepTx j h = .ok (f j h)) :
    prepare_block prepTx msg = .ok
      ((match msg.miner_tx_json, msg.miner_tx_hash with
        | some j, some h => [f j (some h)]
        | _, _ => []) ++
       (msg.ordered_tx_hashes.zip msg.tx_jsons).map (fun p => f p.2 (some p.1))) ∧
    (msg.ordered_tx_hashes.zip msg.tx_jsons).length =
      min msg.ordered_tx_hashes.length msg.tx_jsons.length ∧
    (msg.ordered_tx_hashes.zip msg.tx_jsons).map Prod.fst =
      msg.ordered_tx_hashes.take msg.tx_jsons.length := by
  refine ⟨?_, List.length_zip _ _, map_fst_zip_take _ _⟩
  unfold prepare_block
  cases hmj : msg.miner_tx_json with
  | none =>
    rw [mapM_prepTx_ok prepTx f hp]
    rfl
  | some json =>
    cases hmh : msg.miner_tx_hash with
    | none =>
      rw [mapM_prepTx_ok prepTx f hp]
      rfl
    | some h =>
      simp only [mapM_prepTx_ok prepTx f hp]
      simp only [hp]
      rfl

/-- C10 witness: the concrete message with three hashes and two JSON blobs
is prepared without error into the miner tx plus the two zipped pairs. -/
theorem prepare_block_truncates_witness :
    prepare_block c10PrepTx c10Msg = .ok
      ((match c10Msg.miner_tx_json, c10Msg.miner_tx_hash with
        | some j, some h => [c10F j (some h)]
        | _, _ => []) ++
       (c10Msg.ordered_tx_hashes.zip c10Msg.tx_jsons).map (fun p => c10F p.2 (some p.1))) ∧
    (c10Msg.ordered_tx_hashes.zip c10Msg.tx_jsons).length =
      min c10Msg.ordered_tx_hashes.length c10Msg.tx_jsons.length ∧
    (c10Msg.ordered_tx_hashes.zip c10Msg.tx_jsons).map Prod.fst =
      c10Msg.ordered_tx_hashes.take c10Msg.tx_jsons.length :=
  prepare_block_truncates c10PrepTx c10F c10Msg (fun _ _ => rfl)

/-- Helper: the requested slice has length `min (i+chunk) len − i`. -/
theorem adaptSlice_length (hashes : List Nat) (i chunk : Nat) :
    (adaptSlice hashes i chunk).length = min (i + chunk) hashes.length - i := by
  rw [adaptSlice, List.length_take, List.length_drop]
  omega

/-- Helper: the tail of `hashes` from `i` splits at the requested slice. -/
theorem adaptSlice_split (hashes : List Nat) (i chunk : Nat) :
    hashes.drop i =
      adaptSlice hashes i chunk ++ hashes.drop (min (i + chunk) hashes.length) := by
  by_cases hle : i ≤ hashes.length
  · rw [adaptSlice]
    conv_lhs =>
      rw [← List.take_append_drop (min (i + chunk) hashes.length - i) (hashes.drop i)]
    congr 1
    rw [List.drop_drop]
    congr 1
    omega
  · have h1 : hashes.drop i = [] := List.drop_eq_nil_of_le (by omega)
    have h2 : hashes.drop (min (i + chunk) hashes.length) = [] :=
      List.drop_eq_nil_of_le (by omega)
    rw [adaptSlice, h1, h2]
    simp

/-- Helper: against a C4-style daemon and a sufficient iteration budget,
the loop returns the remaining hashes' transactions in order, appending to
the accumulators, and when work remains it issues at least one request of
size at most K. -/
theorem adaptGo_good (daemon : List Nat → GetTransactionsResult) (K : Nat) (f : Nat → Nat)
    (hashes : List Nat) (hK : 10 ≤ K) (hg : GoodDaemon daemon K f) :
    ∀ (budget i chunk : Nat) (acc : List Nat) (reqs : List (Nat × Nat)),
      10 ≤ chunk →
      11 * (hashes.length - i) + chunk < budget →
      ∃ rs, adaptGo daemon hashes budget i chunk acc reqs =
          some (acc ++ (hashes.drop i).map f, reqs ++ rs) ∧
        (i < hashes.length → ∃ r ∈ rs, r.2 ≤ K) := by
  intro budget
  induction budget with
  | zero =>
    intro i chunk acc reqs hchunk hbud
    exact absurd hbud (Nat.not_lt_zero _)
  | succ b ih =>
    intro i chunk acc reqs hchunk hbud
    by_cases hi : i < hashes.length
    · have hmin1 : i + 1 ≤ min (i + chunk) hashes.length := le_min (by omega) (by omega)
      have hmin2 : min (i + chunk) hashes.length ≤ hashes.length := min_le_right _ _
      have hmin3 : min (i + chunk) hashes.length ≤ i + chunk := min_le_left _ _
      by_cases hcase : min (i + chunk) hashes.length - i ≤ K
      · have hslice := hg.2 (adaptSlice hashes i chunk)
          (by rw [adaptSlice_length]; exact hcase)
        have hempty : (daemon (adaptSlice hashes i chunk)).missed_tx.isEmpty = true := by
          rw [hslice.1]; rfl
        obtain ⟨rs, hrec, hsmall⟩ := ih (min (i + chunk) hashes.length)
          (if chunk < 300 then chunk + 10 else chunk)
          (acc ++ (daemon (adaptSlice hashes i chunk)).txs_as_json)
          (reqs ++ [(i, min (i + chunk) hashes.length - i)])
          (by split <;> omega)
          (by split <;> omega)
        refine ⟨(i, min (i + chunk) hashes.length - i) :: rs, ?_, ?_⟩
        · rw [adaptGo, if_pos hi, if_pos hempty, hrec, hslice.2]
          have hmapped : (adaptSlice hashes i chunk).map f ++
              (hashes.drop (min (i + chunk) hashes.length)).map f =
              (hashes.drop i).map f := by
            rw [← List.map_append, ← adaptSlice_split]
          rw [List.append_assoc, hmapped]
          simp [List.append_assoc]
        · exact fun _ => ⟨(i, min (i + chunk) hashes.length - i),
            List.mem_cons_self _ _, hcase⟩
      · have hmiss := hg.1 (adaptSlice hashes i chunk)
          (by rw [adaptSlice_length]; omega)
        have hempty : (daemon (adaptSlice hashes i chunk)).missed_tx.isEmpty = false := by
          cases hmt : (daemon (adaptSlice hashes i chunk)).missed_tx with
          | nil => exact absurd hmt hmiss
          | cons x xs => rfl
        have hchunkK : K < chunk := by omega
        have hhalf : chunk / 2 ≤ chunk - 1 := by omega
        have hmax : max (chunk / 2) 10 ≤ chunk - 1 := max_le hhalf (by omega)
        obtain ⟨rs, hrec, hsmall⟩ := ih i (max (chunk / 2) 10) acc
          (reqs ++ [(i, min (i + chunk) hashes.length - i)])
          (le_max_right _ _)
          (by omega)
        refine ⟨(i, min (i + chunk) hashes.length - i) :: rs, ?_, ?_⟩
        · rw [adaptGo, if_pos hi, hempty, if_neg (by simp), hrec]
          simp [List.append_assoc]
        · intro _
          obtain ⟨r, hr, hrK⟩ := hsmall hi
          exact ⟨r, List.mem_cons_of_mem _ hr, hrK⟩
    · refine ⟨[], ?_, fun hcon => absurd hcon hi⟩
      have hdrop : hashes.drop i = [] := List.drop_eq_nil_of_le (by omega)
      rw [adaptGo, if_neg hi, hdrop]
      simp

/-- C4: against every daemon that misses any chunk larger than K (K ≥ 10)
and serves smaller chunks completely in request order, the adaptive fetcher
terminates (an iteration budget above `11·N + max start_chunk 10` suffices)
returning exactly the N transactions in input order, and — when any hash
was requested — it issued at least one chunk of size ≤ K; moreover on every
`missed_tx` response (whatever the daemon) one step halves the chunk to a
minimum of 10 and retries at the same offset without advancing. -/
theorem fetch_txs_adaptive_converges (daemon : List Nat → GetTransactionsResult)
    (K : Nat) (f : Nat → Nat) (hashes : List Nat) (start_chunk budget : Nat)
    (hK : 10 ≤ K) (hg : GoodDaemon daemon K f)
    (hbudget : 11 * hashes.length + max start_chunk 10 < budget) :
    (∃ reqs, fetch_txs_adaptive daemon hashes start_chunk budget =
        some (hashes.map f, reqs) ∧
      (hashes ≠ [] → ∃ r ∈ reqs, r.2 ≤ K)) ∧
    (∀ (g i chunk : Nat) (acc : List Nat) (reqs : List (Nat × Nat)),
      i < hashes.length →
      (daemon (adaptSlice hashes i chunk)).missed_tx ≠ [] →
      adaptGo daemon hashes (g + 1) i chunk acc reqs =
        adaptGo daemon hashes g i (max (chunk / 2) 10) acc
          (reqs ++ [(i, min (i + chunk) hashes.length - i)])) := by
  constructor
  · obtain ⟨rs, hrec, hsmall⟩ := adaptGo_good daemon K f hashes hK hg budget 0
      (max start_chunk 10) [] [] (le_max_right _ _) (by simpa using hbudget)
    refine ⟨rs, ?_, ?_⟩
    · rw [fetch_txs_adaptive, hrec]
      simp
    · intro hne
      exact hsmall (List.length_pos.mpr hne)
  · intro g i chunk acc reqs hi hmiss
    have hempty : (daemon (adaptSlice hashes i chunk)).missed_tx.isEmpty = false := by
      cases hmt : (daemon (adaptSlice hashes i chunk)).missed_tx with
      | nil => exact absurd hmt hmiss
      | cons x xs => rfl
    rw [adaptGo, if_pos hi, hempty, if_neg (by simp)]

/-- Helper: the C4 witness daemon satisfies the C4 daemon model at K = 10
with the identity transaction map. -/
theorem c4Daemon_good : GoodDaemon c4Daemon 10 id := by
  constructor
  · intro s hs
    have hnle : ¬ s.length ≤ 10 := by omega
    simp only [c4Daemon, if_neg hnle]
    intro hnil
    rw [hnil] at hs
    exact absurd hs (by simp)
  · intro s hs
    simp [c4Daemon, hs]

/-- C4 witness: three hashes, start chunk 300, budget 344: the fetcher
returns the three transactions in order, with some request of size ≤ 10,
and the halving step equation holds at every missed response. -/
theorem fetch_txs_adaptive_converges_witness :
    (∃ reqs, fetch_txs_adaptive c4Daemon [1, 2, 3] 300 344 =
        some (([1, 2, 3] : List Nat).map id, reqs) ∧
      (([1, 2, 3] : List Nat) ≠ [] → ∃ r ∈ reqs, r.2 ≤ 10)) ∧
    (∀ (g i chunk : Nat) (acc : List Nat) (reqs : List (Nat × Nat)),
      i < ([1, 2, 3] : List Nat).length →
      (c4Daemon (adaptSlice [1, 2, 3] i chunk)).missed_tx ≠ [] →
      adaptGo c4Daemon [1, 2, 3] (g + 1) i chunk acc reqs =
        adaptGo c4Daemon [1, 2, 3] g i (max (chunk / 2) 10) acc
          (reqs ++ [(i, min (i + chunk) ([1, 2, 3] : List Nat).length - i)])) :=
  fetch_txs_adaptive_converges c4Daemon 10 id [1, 2, 3] 300 344
    (by decide) c4Daemon_good (by decide)

end BlockEx
